import Mathlib

/-!
Verification development for the connection-pool file of the xorm repository
(src/pool.go).  The file contains three implementations of the IConnectPool
interface: NoneConnectPool, SysConnectPool and SimpleConnectPool.  The claims
under study concern SimpleConnectPool (the bounded stack policy) and
SysConnectPool (the delegating policy), so those two are embedded here.

Modelling conventions:
- a `*sql.DB` pointer is modelled by a natural-number handle (`Handle`); the
  Go `nil` pointer is modelled by `Option.none` where a field can hold it
  (the `releasedConnects` slots);
- the Go map `map[*sql.DB]time.Time` is modelled by an association list from
  handles to natural-number timestamps, with Go map semantics (insertion
  overwrites an existing key, deletion removes it, deletion of an absent key
  is a no-op);
- a Go runtime panic (nil-pointer dereference inside `(*sql.DB).Close`, or a
  slice index out of range) is modelled by `Option.none` / a dedicated
  `panic`-style result constructor: an operation that panics produces no
  successor state;
- `engine.OpenDB()` (the connection factory) is an external collaborator; its
  outcome is passed to `retrieveDB` as an `Except` value.  In the reachability
  relation, a successful open returns a handle that is distinct from every
  handle seen so far, modelled by threading a counter `n` used as the next
  fresh handle (two live `*sql.DB` pointers are distinct allocations);
- `time.Now()` is modelled by an arbitrary `Nat` timestamp argument; no code
  in pool.go ever reads the stored timestamps.
-/

abbrev Handle := Nat

/-- The Go map `map[*sql.DB]time.Time`: an association list with unique keys,
handle to checkout timestamp. -/
abbrev DBMap := List (Handle × Nat)

/-- Key membership test for the map model. -/
def mapMem (m : DBMap) (k : Handle) : Bool :=
  m.any (fun e => e.1 == k)

/-- Go `m[k] = v`: overwrite the entry if the key is present, else add it. -/
def mapInsert (m : DBMap) (k : Handle) (v : Nat) : DBMap :=
  if mapMem m k then m.map (fun e => if e.1 == k then (k, v) else e)
  else (k, v) :: m

/-- Go `delete(m, k)`: remove the entry for `k`; a no-op if `k` is absent. -/
def mapDelete (m : DBMap) (k : Handle) : DBMap :=
  m.filter (fun e => e.1 != k)

/-- The keys of the map model. -/
def mapKeys (m : DBMap) : List Handle :=
  m.map (fun e => e.1)

/-- Struct SimpleConnectPool (src/pool.go lines 137-144).  `releasedConnects`
is the idle slot array (`[]*sql.DB`, a nil slot is `none`), `cur` the cursor
(Go `int`, -1 when empty), `usingConnects` the in-use map, `maxWaitTimeOut`
and `maxIdleConns` the two configuration fields.  The mutex only serializes
the operations and has no state content, so it is not represented. -/
structure SimpleConnectPool where
  releasedConnects : List (Option Handle)
  cur : Int
  usingConnects : DBMap
  maxWaitTimeOut : Int
  maxIdleConns : Int
deriving DecidableEq

/-- NewSimpleConnectPool (src/pool.go lines 123-131): 10 nil idle slots,
cursor -1, empty in-use map, maxWaitTimeOut 14400, maxIdleConns 10. -/
def newSimpleConnectPool : SimpleConnectPool :=
  { releasedConnects := List.replicate 10 none
    cur := -1
    usingConnects := []
    maxWaitTimeOut := 14400
    maxIdleConns := 10 }

/-- Go slice write `l[i] = v` with an `int` index: `none` models the
index-out-of-range panic. -/
def setSlot (l : List (Option Handle)) (i : Int) (v : Option Handle) :
    Option (List (Option Handle)) :=
  if 0 ≤ i ∧ i.toNat < l.length then some (l.set i.toNat v) else none

/-- Outcome of `RetrieveDB`: a handle plus the new pool state, an error plus
the (unchanged) pool state, or a runtime panic. -/
inductive RetrieveResult where
  | ok (db : Handle) (p : SimpleConnectPool)
  | err (e : Nat) (p : SimpleConnectPool)
  | panic
deriving DecidableEq

/-- SimpleConnectPool.RetrieveDB (src/pool.go lines 151-172).  `fac` is the
outcome of the `engine.OpenDB()` call (only consulted when the cursor is
negative, exactly as in the source), `now` the current time.
If `cur < 0`: on factory failure return the error with the state untouched;
on success record the new handle in `usingConnects`.  Otherwise pop the slot
at the cursor: read `releasedConnects[cur]`, record the handle in
`usingConnects`, nil the slot, decrement the cursor.  A nil slot at or below
the cursor never occurs in states reachable from the constructor (slots up to
the cursor always hold handles — see `StructInv` below); the model maps that
impossible read, where Go would hand out a nil handle, to `panic` as well. -/
def retrieveDB (p : SimpleConnectPool) (fac : Except Nat Handle) (now : Nat) :
    RetrieveResult :=
  if p.cur < 0 then
    match fac with
    | Except.error e => RetrieveResult.err e p
    | Except.ok db =>
        RetrieveResult.ok db
          { p with usingConnects := mapInsert p.usingConnects db now }
  else
    match p.releasedConnects[p.cur.toNat]? with
    | none => RetrieveResult.panic
    | some none => RetrieveResult.panic
    | some (some db) =>
        match setSlot p.releasedConnects p.cur none with
        | none => RetrieveResult.panic
        | some l' =>
            RetrieveResult.ok db
              { p with
                  usingConnects := mapInsert p.usingConnects db now
                  releasedConnects := l'
                  cur := p.cur - 1 }

/-- SimpleConnectPool.ReleaseDB (src/pool.go lines 175-187).  Returns the new
state together with the list of handles whose `Close` was invoked, or `none`
for the index-out-of-range panic on the slot store.  If `cur >= maxIdleConns-1`
the handle is closed instead of retained; otherwise the cursor is incremented
and the handle stored at it.  Either way the handle is deleted from
`usingConnects`. -/
def releaseDB (p : SimpleConnectPool) (db : Handle) :
    Option (SimpleConnectPool × List Handle) :=
  if p.maxIdleConns - 1 ≤ p.cur then
    some ({ p with usingConnects := mapDelete p.usingConnects db }, [db])
  else
    match setSlot p.releasedConnects (p.cur + 1) (some db) with
    | none => none
    | some l' =>
        some ({ p with
                  releasedConnects := l'
                  cur := p.cur + 1
                  usingConnects := mapDelete p.usingConnects db }, [])

/-- The drain loop of SimpleConnectPool.Close (src/pool.go lines 193-196):
repeatedly `Close` the slice head and slice it off, over the WHOLE backing
slice.  Calling `Close` on a nil `*sql.DB` dereferences nil and panics, so the
result is the list of handles closed before the first nil slot (in slot
order), paired with `true` when a nil slot was hit. -/
def closeDrain : List (Option Handle) → List Handle × Bool
  | [] => ([], false)
  | none :: _ => ([], true)
  | some h :: t =>
      let r := closeDrain t
      (h :: r.1, r.2)

/-- SimpleConnectPool.Close (src/pool.go lines 190-199): drain the idle slice.
Returns the new state (backing slice empty, every other field untouched) and
the closed handles, or `none` when the drain panics on a nil slot. -/
def simpleClose (p : SimpleConnectPool) :
    Option (SimpleConnectPool × List Handle) :=
  let r := closeDrain p.releasedConnects
  if r.2 then none else some ({ p with releasedConnects := [] }, r.1)

/-- SimpleConnectPool.SetMaxIdleConns (src/pool.go lines 201-203). -/
def setMaxIdleConns (p : SimpleConnectPool) (conns : Int) : SimpleConnectPool :=
  { p with maxIdleConns := conns }

/-- The handles currently stored in the idle slots (the non-nil entries). -/
def idleHandles (p : SimpleConnectPool) : List Handle :=
  p.releasedConnects.filterMap id

/-- Number of handles in the idle stack. -/
def idleCount (p : SimpleConnectPool) : Nat :=
  (idleHandles p).length

/-- Keys of the in-use map. -/
def usingKeys (p : SimpleConnectPool) : List Handle :=
  mapKeys p.usingConnects

/-- Reachability of a SimpleConnectPool state from the constructor by
sequences of operations.  The index `n` is the supply of fresh handles: a
successful factory call returns `n` (distinct from all earlier handles) and
is also used as the current time.  `a` enables `SetMaxIdleConns` steps; `w`
restricts `ReleaseDB` steps to well-formed ones (the released handle is
currently a key of the in-use map, i.e. was acquired and not yet released).
A factory failure, and any operation that panics, produces no successor
state. -/
inductive Reach (a w : Bool) : SimpleConnectPool → Nat → Prop where
  | init : Reach a w newSimpleConnectPool 0
  | acquireNew {p p' : SimpleConnectPool} {n : Nat} {db : Handle} :
      Reach a w p n → p.cur < 0 →
      retrieveDB p (Except.ok n) n = RetrieveResult.ok db p' →
      Reach a w p' (n + 1)
  | acquirePop {p p' : SimpleConnectPool} {n : Nat} {db : Handle} :
      Reach a w p n → 0 ≤ p.cur →
      retrieveDB p (Except.error 0) n = RetrieveResult.ok db p' →
      Reach a w p' n
  | releaseStep {p p' : SimpleConnectPool} {n : Nat} {db : Handle}
      {cs : List Handle} :
      Reach a w p n → (w = true → db ∈ usingKeys p) →
      releaseDB p db = some (p', cs) →
      Reach a w p' n
  | setMaxStep {p : SimpleConnectPool} {n : Nat} (m : Int) :
      Reach a w p n → a = true →
      Reach a w (setMaxIdleConns p m) n
  | closeStep {p p' : SimpleConnectPool} {n : Nat} {cs : List Handle} :
      Reach a w p n → simpleClose p = some (p', cs) →
      Reach a w p' n

/-- Struct SysConnectPool (src/pool.go lines 78-81): the single retained
handle (`nil` before Init) and the locally stored idle cap. -/
structure SysConnectPool where
  db : Option Handle
  maxIdleConns : Int
deriving DecidableEq

/-- NewSysConnectPool (src/pool.go lines 84-86): zero-valued struct. -/
def newSysConnectPool : SysConnectPool :=
  { db := none, maxIdleConns := 0 }

/-- SysConnectPool.Init (src/pool.go lines 89-97): open a connection via the
factory; on failure propagate the error, on success retain the handle and set
`maxIdleConns` to 2. -/
def sysInit (p : SysConnectPool) (fac : Except Nat Handle) :
    Except Nat SysConnectPool :=
  match fac with
  | Except.error e => Except.error e
  | Except.ok db => Except.ok { p with db := some db, maxIdleConns := 2 }

/-- SysConnectPool.RetrieveDB (src/pool.go lines 100-102): return the retained
handle and a nil error, unconditionally. -/
def sysRetrieveDB (p : SysConnectPool) : Option Handle × Option Nat :=
  (p.db, none)

/-- SysConnectPool.ReleaseDB (src/pool.go lines 105-106): do nothing. -/
def sysReleaseDB (p : SysConnectPool) (db : Handle) : SysConnectPool :=
  p

/-- SysConnectPool.SetMaxIdleConns (src/pool.go lines 113-116): the call is
also forwarded to the retained handle's own SetMaxIdleConns (an external side
effect on the handle, not on pool state); locally it stores the value. -/
def sysSetMaxIdleConns (p : SysConnectPool) (conns : Int) : SysConnectPool :=
  { p with maxIdleConns := conns }

/-- SysConnectPool.MaxIdleConns (src/pool.go lines 118-120). -/
def sysMaxIdleConns (p : SysConnectPool) : Int :=
  p.maxIdleConns

/-- The operations a caller can interleave on a SysConnectPool after Init
without reconfiguring it: acquires and releases. -/
inductive SysOp where
  | retrieve : SysOp
  | release (db : Handle) : SysOp

/-- Apply a sequence of acquire/release operations to a SysConnectPool. -/
def sysApply (p : SysConnectPool) : List SysOp → SysConnectPool
  | [] => p
  | SysOp.retrieve :: rest => sysApply p rest
  | SysOp.release db :: rest => sysApply (sysReleaseDB p db) rest

/-! ### Helper lemmas about the map model -/

theorem mapMem_iff (m : DBMap) (k : Handle) : mapMem m k = true ↔ k ∈ mapKeys m := by
  simp [mapMem, mapKeys, List.any_eq_true, List.mem_map]

theorem mapInsert_of_not_mem {m : DBMap} {k : Handle} (v : Nat)
    (h : ¬ k ∈ mapKeys m) : mapInsert m k v = (k, v) :: m := by
  have hm : mapMem m k = false := by
    cases hmm : mapMem m k with
    | false => rfl
    | true => exact absurd ((mapMem_iff m k).mp hmm) h
  simp [mapInsert, hm]

theorem mem_mapKeys_delete {m : DBMap} {k j : Handle} :
    j ∈ mapKeys (mapDelete m k) ↔ j ∈ mapKeys m ∧ j ≠ k := by
  simp only [mapKeys, mapDelete, List.mem_map, List.mem_filter]
  constructor
  · rintro ⟨e, ⟨he, hne⟩, rfl⟩
    refine ⟨⟨e, he, rfl⟩, ?_⟩
    simpa using hne
  · rintro ⟨⟨e, he, rfl⟩, hne⟩
    exact ⟨e, ⟨he, by simpa using hne⟩, rfl⟩

theorem mapDelete_of_not_mem {m : DBMap} {k : Handle}
    (h : ¬ k ∈ mapKeys m) : mapDelete m k = m := by
  apply List.filter_eq_self.mpr
  intro e he
  have : e.1 ≠ k := by
    intro hk
    exact h (List.mem_map.mpr ⟨e, he, hk⟩)
  simpa using this

theorem not_mem_mapKeys_delete (m : DBMap) (k : Handle) :
    ¬ k ∈ mapKeys (mapDelete m k) := by
  intro h
  exact (mem_mapKeys_delete.mp h).2 rfl

/-! ### Helper lemmas about lists of idle slots -/

theorem getElem?_append_cons {α : Type} (l₁ l₂ : List α) (a : α) :
    (l₁ ++ a :: l₂)[l₁.length]? = some a := by
  induction l₁ with
  | nil => simp
  | cons x xs ih => simpa using ih

theorem set_append_cons {α : Type} (l₁ l₂ : List α) (a b : α) :
    (l₁ ++ a :: l₂).set l₁.length b = l₁ ++ b :: l₂ := by
  induction l₁ with
  | nil => rfl
  | cons x xs ih => simp [List.set, ih]

theorem filterMap_id_map_some (hs : List Handle) :
    (hs.map some).filterMap id = hs := by
  induction hs with
  | nil => rfl
  | cons h t ih => simp [List.filterMap_cons, ih]

theorem filterMap_id_replicate_none (k : Nat) :
    (List.replicate k (none : Option Handle)).filterMap id = [] := by
  induction k with
  | zero => rfl
  | succ j ih => simp [List.replicate, List.filterMap_cons, ih]

/-- A slot list is a stack of the handles `hs`: handles at the bottom, nil
padding above. -/
def IsStack (l : List (Option Handle)) (hs : List Handle) : Prop :=
  ∃ k, l = hs.map some ++ List.replicate k none

theorem IsStack.length_le {l : List (Option Handle)} {hs : List Handle}
    (h : IsStack l hs) : hs.length ≤ l.length := by
  obtain ⟨k, rfl⟩ := h
  simp

theorem IsStack.idle {l : List (Option Handle)} {hs : List Handle}
    (h : IsStack l hs) : l.filterMap id = hs := by
  obtain ⟨k, rfl⟩ := h
  simp [List.filterMap_append, filterMap_id_map_some, filterMap_id_replicate_none]

theorem IsStack.get_top {l : List (Option Handle)} {t : List Handle} {b : Handle}
    (h : IsStack l (t ++ [b])) : l[t.length]? = some (some b) := by
  obtain ⟨k, rfl⟩ := h
  have : (t ++ [b]).map some ++ List.replicate k none
      = t.map some ++ some b :: List.replicate k none := by
    simp
  rw [this]
  simpa using getElem?_append_cons (t.map some) (List.replicate k none) (some b)

theorem IsStack.set_pop {l : List (Option Handle)} {t : List Handle} {b : Handle}
    (h : IsStack l (t ++ [b])) : IsStack (l.set t.length none) t := by
  obtain ⟨k, rfl⟩ := h
  have h1 : (t ++ [b]).map some ++ List.replicate k none
      = t.map some ++ some b :: List.replicate k none := by
    simp
  rw [h1]
  have h2 := set_append_cons (t.map some) (List.replicate k none) (some b) none
  simp only [List.length_map] at h2
  rw [h2]
  exact ⟨k + 1, by simp [List.replicate]⟩

theorem IsStack.set_push {l : List (Option Handle)} {hs : List Handle}
    (h : IsStack l hs) (hlt : hs.length < l.length) (db : Handle) :
    IsStack (l.set hs.length (some db)) (hs ++ [db]) := by
  obtain ⟨k, rfl⟩ := h
  have hk : 0 < k := by
    simp at hlt
    omega
  obtain ⟨j, rfl⟩ : ∃ j, k = j + 1 := ⟨k - 1, by omega⟩
  have h1 : hs.map some ++ List.replicate (j + 1) none
      = hs.map some ++ none :: List.replicate j none := by
    simp [List.replicate]
  rw [h1]
  have h2 := set_append_cons (hs.map some) (List.replicate j none) none (some db)
  simp only [List.length_map] at h2
  rw [h2]
  exact ⟨j, by simp⟩

theorem closeDrain_stack (hs : List Handle) (k : Nat) :
    closeDrain (hs.map some ++ List.replicate k none) = (hs, decide (0 < k)) := by
  induction hs with
  | nil =>
      cases k with
      | zero => rfl
      | succ j => simp [List.replicate, closeDrain]
  | cons h t ih => simp [closeDrain, ih]

/-- Structural invariant of every reachable SimpleConnectPool state: the idle
slots form a stack, and either the backing slice still has its original 10
slots with the cursor pointing at the top of the stack, or the backing slice
was emptied by Close (which only happens with a full stack, so the stale
cursor is 9). -/
def StructInv (p : SimpleConnectPool) : Prop :=
  ∃ hs, IsStack p.releasedConnects hs ∧
    ((p.releasedConnects.length = 10 ∧ (hs.length : Int) = p.cur + 1) ∨
     (p.releasedConnects.length = 0 ∧ p.cur = 9))

/-! ### Characterization of each operation under the structural invariant -/

theorem retrieve_new_char {p p' : SimpleConnectPool} {db : Handle}
    {fac : Except Nat Handle} {now : Nat}
    (hcur : p.cur < 0) (h : retrieveDB p fac now = RetrieveResult.ok db p') :
    fac = Except.ok db ∧
      p' = { p with usingConnects := mapInsert p.usingConnects db now } := by
  unfold retrieveDB at h
  rw [if_pos hcur] at h
  cases fac with
  | error e => simp at h
  | ok d =>
      simp only [RetrieveResult.ok.injEq] at h
      obtain ⟨rfl, rfl⟩ := h
      exact ⟨rfl, rfl⟩

theorem retrieve_pop_char {p p' : SimpleConnectPool} {db : Handle}
    {fac : Except Nat Handle} {now : Nat}
    (hinv : StructInv p) (hcur : 0 ≤ p.cur)
    (h : retrieveDB p fac now = RetrieveResult.ok db p') :
    ∃ t, idleHandles p = t ++ [db] ∧ idleHandles p' = t ∧
      p'.usingConnects = mapInsert p.usingConnects db now ∧
      p'.cur = p.cur - 1 ∧ p'.maxIdleConns = p.maxIdleConns ∧
      p'.maxWaitTimeOut = p.maxWaitTimeOut ∧
      p'.releasedConnects.length = p.releasedConnects.length ∧
      StructInv p' := by
  obtain ⟨hs, hstk, hcase⟩ := hinv
  unfold retrieveDB at h
  rw [if_neg (by omega : ¬ p.cur < 0)] at h
  rcases hcase with ⟨hlen, hlen2⟩ | ⟨hlen, hcur9⟩
  · -- backing slice still has its 10 slots
    obtain ⟨t, b, rfl⟩ : ∃ t b, hs = t ++ [b] := by
      rcases List.eq_nil_or_concat hs with h1 | ⟨t, b, h1⟩
      · subst h1
        simp at hlen2
        omega
      · exact ⟨t, b, by simpa [List.concat_eq_append] using h1⟩
    have hct : p.cur.toNat = t.length := by
      simp at hlen2
      omega
    have hget := hstk.get_top
    rw [hct, hget] at h
    have hset : setSlot p.releasedConnects p.cur none
        = some (p.releasedConnects.set p.cur.toNat none) := by
      unfold setSlot
      rw [if_pos ⟨hcur, by rw [hct, hlen]; have := hstk.length_le; simp at this; omega⟩]
    rw [hset] at h
    simp only [RetrieveResult.ok.injEq] at h
    obtain ⟨rfl, rfl⟩ := h
    refine ⟨t, ?_, ?_, rfl, rfl, rfl, rfl, by simp, ?_⟩
    · exact hstk.idle
    · show (p.releasedConnects.set p.cur.toNat none).filterMap id = t
      rw [hct]
      exact (hstk.set_pop).idle
    · refine ⟨t, by rw [hct]; exact hstk.set_pop, Or.inl ⟨by simp [hlen], ?_⟩⟩
      simp at hlen2 ⊢
      omega
  · -- backing slice was emptied by Close: the read panics
    have hnil : p.releasedConnects = [] := List.length_eq_zero.mp hlen
    rw [hnil] at h
    simp at h

theorem release_char {p p' : SimpleConnectPool} {db : Handle} {cs : List Handle}
    (hinv : StructInv p) (h : releaseDB p db = some (p', cs)) :
    p'.usingConnects = mapDelete p.usingConnects db ∧
    p'.maxIdleConns = p.maxIdleConns ∧ p'.maxWaitTimeOut = p.maxWaitTimeOut ∧
    StructInv p' ∧
    ((p.maxIdleConns - 1 ≤ p.cur ∧ cs = [db] ∧
        p'.releasedConnects = p.releasedConnects ∧ p'.cur = p.cur) ∨
     (p.cur < p.maxIdleConns - 1 ∧ cs = [] ∧
        idleHandles p' = idleHandles p ++ [db] ∧ p'.cur = p.cur + 1 ∧
        p'.releasedConnects.length = p.releasedConnects.length)) := by
  obtain ⟨hs, hstk, hcase⟩ := hinv
  unfold releaseDB at h
  by_cases hm : p.maxIdleConns - 1 ≤ p.cur
  · rw [if_pos hm] at h
    simp only [Option.some.injEq, Prod.mk.injEq] at h
    obtain ⟨rfl, rfl⟩ := h
    exact ⟨rfl, rfl, rfl, ⟨hs, hstk, hcase⟩, Or.inl ⟨hm, rfl, rfl, rfl⟩⟩
  · rw [if_neg hm] at h
    by_cases hok : 0 ≤ p.cur + 1 ∧ (p.cur + 1).toNat < p.releasedConnects.length
    · have hset : setSlot p.releasedConnects (p.cur + 1) (some db)
          = some (p.releasedConnects.set (p.cur + 1).toNat (some db)) := by
        unfold setSlot
        rw [if_pos hok]
      rw [hset] at h
      simp only [Option.some.injEq, Prod.mk.injEq] at h
      obtain ⟨rfl, rfl⟩ := h
      rcases hcase with ⟨hlen, hlen2⟩ | ⟨hlen, hcur9⟩
      · have hct : (p.cur + 1).toNat = hs.length := by
          omega
        have hlt : hs.length < p.releasedConnects.length := by
          rw [← hct]
          exact hok.2
        refine ⟨rfl, rfl, rfl, ?_, Or.inr ⟨by omega, rfl, ?_, rfl, by simp⟩⟩
        · refine ⟨hs ++ [db], by rw [hct]; exact hstk.set_push hlt db,
            Or.inl ⟨by simp [hlen], ?_⟩⟩
          simp at hlen2 ⊢
          omega
        · show (p.releasedConnects.set (p.cur + 1).toNat (some db)).filterMap id
              = p.releasedConnects.filterMap id ++ [db]
          rw [hct, (hstk.set_push hlt db).idle, hstk.idle]
      · rw [hlen] at hok
        omega
    · have hset : setSlot p.releasedConnects (p.cur + 1) (some db) = none := by
        unfold setSlot
        rw [if_neg hok]
      rw [hset] at h
      simp at h

theorem close_char {p p' : SimpleConnectPool} {cs : List Handle}
    (hinv : StructInv p) (h : simpleClose p = some (p', cs)) :
    cs = idleHandles p ∧ p'.releasedConnects = [] ∧ p'.cur = p.cur ∧
    p'.usingConnects = p.usingConnects ∧ p'.maxIdleConns = p.maxIdleConns ∧
    p'.maxWaitTimeOut = p.maxWaitTimeOut ∧ StructInv p' := by
  obtain ⟨hs, hstk, hcase⟩ := hinv
  have hidle := hstk.idle
  obtain ⟨k, hl⟩ := hstk
  unfold simpleClose at h
  rw [hl, closeDrain_stack] at h
  by_cases hk : 0 < k
  · simp [hk] at h
  · have hk0 : k = 0 := by omega
    subst hk0
    simp only [decide_eq_true_eq, if_neg (by omega : ¬ (0:Nat) < 0),
      Option.some.injEq, Prod.mk.injEq] at h
    obtain ⟨rfl, rfl⟩ := h
    have hcur9 : p.cur = 9 := by
      rcases hcase with ⟨hlen, hlen2⟩ | ⟨hlen, hcur9⟩
      · rw [hl] at hlen
        simp at hlen hlen2
        omega
      · exact hcur9
    refine ⟨by rw [← hidle]; rfl, rfl, rfl, rfl, rfl, rfl, ?_⟩
    exact ⟨[], ⟨0, by simp⟩, Or.inr ⟨rfl, hcur9⟩⟩

/-! ### Invariants along reachable states -/

theorem structInv_new : StructInv newSimpleConnectPool := by
  refine ⟨[], ⟨10, by simp [newSimpleConnectPool]⟩, Or.inl ⟨by simp [newSimpleConnectPool], by simp [newSimpleConnectPool]⟩⟩

theorem structInv_reach {a w : Bool} {p : SimpleConnectPool} {n : Nat}
    (h : Reach a w p n) : StructInv p := by
  induction h with
  | init => exact structInv_new
  | acquireNew hr hcur hstep ih =>
      obtain ⟨-, rfl⟩ := retrieve_new_char hcur hstep
      obtain ⟨hs, hstk, hcase⟩ := ih
      exact ⟨hs, hstk, hcase⟩
  | acquirePop hr hcur hstep ih =>
      obtain ⟨t, -, -, -, -, -, -, -, hinv⟩ := retrieve_pop_char ih hcur hstep
      exact hinv
  | releaseStep hr hwf hstep ih =>
      obtain ⟨-, -, -, hinv, -⟩ := release_char ih hstep
      exact hinv
  | setMaxStep m hr ha ih =>
      obtain ⟨hs, hstk, hcase⟩ := ih
      exact ⟨hs, hstk, hcase⟩
  | closeStep hr hstep ih =>
      obtain ⟨-, -, -, -, -, -, hinv⟩ := close_char ih hstep
      exact hinv

/-- Without SetMaxIdleConns steps, `maxIdleConns` keeps its constructed
value 10. -/
theorem maxIdle_reach_noSet {w : Bool} {p : SimpleConnectPool} {n : Nat}
    (h : Reach false w p n) : p.maxIdleConns = 10 := by
  induction h with
  | init => rfl
  | acquireNew hr hcur hstep ih =>
      obtain ⟨-, rfl⟩ := retrieve_new_char hcur hstep
      exact ih
  | acquirePop hr hcur hstep ih =>
      obtain ⟨t, -, -, -, -, hmax, -, -, -⟩ :=
        retrieve_pop_char (structInv_reach hr) hcur hstep
      rw [hmax]
      exact ih
  | releaseStep hr hwf hstep ih =>
      obtain ⟨-, hmax, -, -, -⟩ := release_char (structInv_reach hr) hstep
      rw [hmax]
      exact ih
  | setMaxStep m hr ha ih => cases ha
  | closeStep hr hstep ih =>
      obtain ⟨-, -, -, -, hmax, -, -⟩ := close_char (structInv_reach hr) hstep
      rw [hmax]
      exact ih

/-- The idle stack never outgrows the 10 physical slots. -/
theorem idleCount_le_ten {p : SimpleConnectPool} (h : StructInv p) :
    idleCount p ≤ 10 := by
  obtain ⟨hs, hstk, hcase⟩ := h
  have h1 : idleCount p = hs.length := by
    unfold idleCount idleHandles
    rw [hstk.idle]
  have h2 := hstk.length_le
  rcases hcase with ⟨hlen, -⟩ | ⟨hlen, -⟩ <;> omega


/-- Full invariant for well-formed executions: the idle stack has no
duplicates, is disjoint from the in-use keys, and every handle the pool holds
was produced by the factory (is below the fresh-handle counter `n`). -/
def FullInv (p : SimpleConnectPool) (n : Nat) : Prop :=
  (idleHandles p).Nodup ∧
  (∀ h, h ∈ idleHandles p → ¬ h ∈ usingKeys p) ∧
  (∀ h, h ∈ idleHandles p → h < n) ∧
  (∀ h, h ∈ usingKeys p → h < n)

theorem fullInv_acquireNew {p p' : SimpleConnectPool} {n : Nat} {db : Handle}
    (hinv : FullInv p n) (hcur : p.cur < 0)
    (hstep : retrieveDB p (Except.ok n) n = RetrieveResult.ok db p') :
    FullInv p' (n + 1) := by
  obtain ⟨hfac, rfl⟩ := retrieve_new_char hcur hstep
  obtain ⟨hnd, hdisj, hif, huf⟩ := hinv
  injection hfac with hdb
  subst hdb
  have hnotin : ¬ n ∈ usingKeys p := fun hin => absurd (huf n hin) (lt_irrefl n)
  have hkeys : usingKeys { p with usingConnects := mapInsert p.usingConnects n n }
      = n :: usingKeys p := by
    show mapKeys (mapInsert p.usingConnects n n) = n :: mapKeys p.usingConnects
    rw [mapInsert_of_not_mem _ hnotin]
    rfl
  have hidle : idleHandles { p with usingConnects := mapInsert p.usingConnects n n }
      = idleHandles p := rfl
  refine ⟨by rw [hidle]; exact hnd, ?_, ?_, ?_⟩
  · intro h hmem
    rw [hidle] at hmem
    rw [hkeys]
    intro hcon
    rcases List.mem_cons.mp hcon with rfl | hcon2
    · exact absurd (hif h hmem) (lt_irrefl h)
    · exact hdisj h hmem hcon2
  · intro h hmem
    rw [hidle] at hmem
    exact Nat.lt_succ_of_lt (hif h hmem)
  · intro h hmem
    rw [hkeys] at hmem
    rcases List.mem_cons.mp hmem with rfl | hmem2
    · exact Nat.lt_succ_self h
    · exact Nat.lt_succ_of_lt (huf h hmem2)

theorem fullInv_acquirePop {p p' : SimpleConnectPool} {n now : Nat} {db : Handle}
    {fac : Except Nat Handle}
    (hstruct : StructInv p) (hinv : FullInv p n) (hcur : 0 ≤ p.cur)
    (hstep : retrieveDB p fac now = RetrieveResult.ok db p') :
    FullInv p' n := by
  obtain ⟨hnd, hdisj, hif, huf⟩ := hinv
  obtain ⟨t, hidle, hidle', husing, -, -, -, -, -⟩ :=
    retrieve_pop_char hstruct hcur hstep
  have hdbmem : db ∈ idleHandles p := by
    rw [hidle]
    exact List.mem_append_right t (List.mem_singleton_self db)
  have hdbnotin : ¬ db ∈ usingKeys p := hdisj db hdbmem
  have hkeys : usingKeys p' = db :: usingKeys p := by
    show mapKeys p'.usingConnects = _
    rw [husing, mapInsert_of_not_mem _ hdbnotin]
    rfl
  rw [hidle] at hnd
  have hsplit := List.nodup_append.mp hnd
  have hndt : t.Nodup := hsplit.1
  have hdbt : ¬ db ∈ t := fun hmem => hsplit.2.2 hmem (List.mem_singleton_self db)
  refine ⟨by rw [hidle']; exact hndt, ?_, ?_, ?_⟩
  · intro h hmem
    rw [hidle'] at hmem
    rw [hkeys]
    intro hcon
    rcases List.mem_cons.mp hcon with rfl | hcon2
    · exact hdbt hmem
    · exact hdisj h (by rw [hidle]; exact List.mem_append_left _ hmem) hcon2
  · intro h hmem
    rw [hidle'] at hmem
    exact hif h (by rw [hidle]; exact List.mem_append_left _ hmem)
  · intro h hmem
    rw [hkeys] at hmem
    rcases List.mem_cons.mp hmem with rfl | hmem2
    · exact hif h hdbmem
    · exact huf h hmem2

theorem fullInv_release {p p' : SimpleConnectPool} {n : Nat} {db : Handle}
    {cs : List Handle}
    (hstruct : StructInv p) (hinv : FullInv p n) (hmem : db ∈ usingKeys p)
    (hstep : releaseDB p db = some (p', cs)) :
    FullInv p' n := by
  obtain ⟨hnd, hdisj, hif, huf⟩ := hinv
  obtain ⟨husing, -, -, -, hcases⟩ := release_char hstruct hstep
  have hkeys : ∀ h, h ∈ usingKeys p' ↔ h ∈ usingKeys p ∧ h ≠ db := by
    intro h
    show h ∈ mapKeys p'.usingConnects ↔ _
    rw [husing]
    exact mem_mapKeys_delete
  rcases hcases with ⟨-, -, hrel, -⟩ | ⟨-, -, hidle', -, -⟩
  · have hidle : idleHandles p' = idleHandles p := by
      unfold idleHandles
      rw [hrel]
    refine ⟨by rw [hidle]; exact hnd, ?_, ?_, ?_⟩
    · intro h hm
      rw [hidle] at hm
      intro hcon
      exact hdisj h hm ((hkeys h).mp hcon).1
    · intro h hm
      rw [hidle] at hm
      exact hif h hm
    · intro h hm
      exact huf h ((hkeys h).mp hm).1
  · have hdbnot : ¬ db ∈ idleHandles p := fun hin => hdisj db hin hmem
    refine ⟨?_, ?_, ?_, ?_⟩
    · rw [hidle']
      refine List.nodup_append.mpr ⟨hnd, List.nodup_singleton db, ?_⟩
      intro x hx hx2
      rw [List.mem_singleton] at hx2
      subst hx2
      exact hdbnot hx
    · intro h hm
      rw [hidle'] at hm
      intro hcon
      have hcon1 := (hkeys h).mp hcon
      rcases List.mem_append.mp hm with hm1 | hm2
      · exact hdisj h hm1 hcon1.1
      · rw [List.mem_singleton] at hm2
        subst hm2
        exact hcon1.2 rfl
    · intro h hm
      rw [hidle'] at hm
      rcases List.mem_append.mp hm with hm1 | hm2
      · exact hif h hm1
      · rw [List.mem_singleton] at hm2
        subst hm2
        exact huf h hmem
    · intro h hm
      exact huf h ((hkeys h).mp hm).1

theorem fullInv_close {p p' : SimpleConnectPool} {n : Nat} {cs : List Handle}
    (hstruct : StructInv p) (hinv : FullInv p n)
    (hstep : simpleClose p = some (p', cs)) : FullInv p' n := by
  obtain ⟨hnd, hdisj, hif, huf⟩ := hinv
  obtain ⟨-, hrel, -, husing, -, -, -⟩ := close_char hstruct hstep
  have hidle : idleHandles p' = [] := by
    unfold idleHandles
    rw [hrel]
    rfl
  have hkeys : usingKeys p' = usingKeys p := by
    show mapKeys p'.usingConnects = mapKeys p.usingConnects
    rw [husing]
  refine ⟨by rw [hidle]; exact List.nodup_nil, ?_, ?_, ?_⟩
  · intro h hm
    rw [hidle] at hm
    cases hm
  · intro h hm
    rw [hidle] at hm
    cases hm
  · intro h hm
    rw [hkeys] at hm
    exact huf h hm

theorem fullInv_new : FullInv newSimpleConnectPool 0 := by
  have hie : idleHandles newSimpleConnectPool = [] := rfl
  have hue : usingKeys newSimpleConnectPool = [] := rfl
  refine ⟨by rw [hie]; exact List.nodup_nil, ?_, ?_, ?_⟩ <;>
    intro h hm
  · rw [hie] at hm
    cases hm
  · rw [hie] at hm
    cases hm
  · rw [hue] at hm
    cases hm

theorem fullInv_reach {a : Bool} {p : SimpleConnectPool} {n : Nat}
    (h : Reach a true p n) : FullInv p n := by
  induction h with
  | init => exact fullInv_new
  | acquireNew hr hcur hstep ih => exact fullInv_acquireNew ih hcur hstep
  | acquirePop hr hcur hstep ih =>
      exact fullInv_acquirePop (structInv_reach hr) ih hcur hstep
  | releaseStep hr hwf hstep ih =>
      exact fullInv_release (structInv_reach hr) ih (hwf rfl) hstep
  | setMaxStep m hr ha ih => exact ih
  | closeStep hr hstep ih => exact fullInv_close (structInv_reach hr) ih hstep

/-! ### Concrete pool states used by witnesses and counterexamples -/

/-- Pool after Acquire ×3 (factory handles 0,1,2) and Release ×3 from the
constructor: idle stack holds 0,1,2 in slots 0-2, slots 3-9 are nil. -/
def pool3 : SimpleConnectPool :=
  { releasedConnects := [some 0, some 1, some 2] ++ List.replicate 7 none
    cur := 2
    usingConnects := []
    maxWaitTimeOut := 14400
    maxIdleConns := 10 }

/-- Pool after Acquire h0, Release h0 from the constructor: one idle handle. -/
def poolW3 : SimpleConnectPool :=
  { releasedConnects := some 0 :: List.replicate 9 none
    cur := 0
    usingConnects := []
    maxWaitTimeOut := 14400
    maxIdleConns := 10 }

/-- Pool reached by Acquire ×2, Release ×2, SetMaxIdleConns 1: two idle
handles but maxIdleConns 1. -/
def poolOverIdle : SimpleConnectPool :=
  { releasedConnects := [some 0, some 1] ++ List.replicate 8 none
    cur := 1
    usingConnects := []
    maxWaitTimeOut := 14400
    maxIdleConns := 1 }

/-- Hand-built pool with idle stack [4] and handle 5 checked out. -/
def poolC4 : SimpleConnectPool :=
  { releasedConnects := some 4 :: List.replicate 9 none
    cur := 0
    usingConnects := [(5, 0)]
    maxWaitTimeOut := 14400
    maxIdleConns := 10 }

/-- poolC4 after ReleaseDB 5: idle stack [4, 5]. -/
def poolC4after : SimpleConnectPool :=
  { releasedConnects := some 4 :: some 5 :: List.replicate 8 none
    cur := 1
    usingConnects := []
    maxWaitTimeOut := 14400
    maxIdleConns := 10 }

/-- Hand-built pool with all 10 slots full and handle 7 checked out. -/
def poolFull : SimpleConnectPool :=
  { releasedConnects := List.replicate 10 (some 3)
    cur := 9
    usingConnects := [(7, 0)]
    maxWaitTimeOut := 14400
    maxIdleConns := 10 }

/-- poolFull after Close: backing slice empty, everything else untouched. -/
def poolFullAfter : SimpleConnectPool :=
  { releasedConnects := []
    cur := 9
    usingConnects := [(7, 0)]
    maxWaitTimeOut := 14400
    maxIdleConns := 10 }

/-! ### Further helper lemmas for the claim theorems -/

theorem getElem?_set_lt {α : Type} (l : List α) (i : Nat) (a : α)
    (h : i < l.length) : (l.set i a)[i]? = some a := by
  induction l generalizing i with
  | nil => simp at h
  | cons x xs ih =>
      cases i with
      | zero => simp
      | succ j =>
          simp only [List.set]
          simpa using ih j (by simpa using h)

theorem sysApply_id (p : SysConnectPool) (ops : List SysOp) :
    sysApply p ops = p := by
  induction ops with
  | nil => rfl
  | cons op rest ih =>
      cases op <;> simpa [sysApply, sysReleaseDB] using ih

/-! ### Claim theorems -/

/-- C7: a freshly constructed SimpleConnectPool has an idle stack backed by
10 fixed slots (all nil), cursor at the empty sentinel -1, an empty in-use
mapping, maxIdleConns = 10, and the unused maximum-idle-duration setting
maxWaitTimeOut = 14400. -/
theorem fresh_pool_fields :
    newSimpleConnectPool.releasedConnects.length = 10 ∧
    newSimpleConnectPool.releasedConnects = List.replicate 10 none ∧
    newSimpleConnectPool.cur = -1 ∧
    newSimpleConnectPool.usingConnects = [] ∧
    newSimpleConnectPool.maxIdleConns = 10 ∧
    newSimpleConnectPool.maxWaitTimeOut = 14400 :=
  ⟨rfl, rfl, rfl, rfl, rfl, rfl⟩

/-- C5: when the idle stack is empty (cursor negative) and the connection
factory fails, RetrieveDB returns exactly that error and the entire pool
state unchanged. -/
theorem acquire_error_propagation (p : SimpleConnectPool) (e : Nat) (now : Nat)
    (h : p.cur < 0) :
    retrieveDB p (Except.error e) now = RetrieveResult.err e p := by
  unfold retrieveDB
  rw [if_pos h]

theorem acquire_error_propagation_witness :
    newSimpleConnectPool.cur < 0 ∧
    retrieveDB newSimpleConnectPool (Except.error 7) 0
      = RetrieveResult.err 7 newSimpleConnectPool :=
  ⟨by decide, acquire_error_propagation newSimpleConnectPool 7 0 (by decide)⟩

/-- C4: idle-handle reuse is LIFO: if a ReleaseDB retained its handle on the
idle stack (it closed nothing), the next RetrieveDB pops and returns exactly
that most recently pushed handle, whatever the factory would do. -/
theorem lifo_reuse (p p1 : SimpleConnectPool) (db : Handle)
    (fac : Except Nat Handle) (now : Nat)
    (h : releaseDB p db = some (p1, [])) :
    ∃ p2, retrieveDB p1 fac now = RetrieveResult.ok db p2 := by
  unfold releaseDB at h
  by_cases hm : p.maxIdleConns - 1 ≤ p.cur
  · rw [if_pos hm] at h
    simp at h
  · rw [if_neg hm] at h
    by_cases hok : 0 ≤ p.cur + 1 ∧ (p.cur + 1).toNat < p.releasedConnects.length
    · have hset : setSlot p.releasedConnects (p.cur + 1) (some db)
          = some (p.releasedConnects.set (p.cur + 1).toNat (some db)) := by
        unfold setSlot
        rw [if_pos hok]
      rw [hset] at h
      simp only [Option.some.injEq, Prod.mk.injEq, and_true] at h
      subst h
      refine ⟨⟨(p.releasedConnects.set (p.cur + 1).toNat (some db)).set
          (p.cur + 1).toNat none, p.cur + 1 - 1,
          mapInsert (mapDelete p.usingConnects db) db now,
          p.maxWaitTimeOut, p.maxIdleConns⟩, ?_⟩
      simp only [retrieveDB]
      rw [if_neg (by omega : ¬ (p.cur + 1 : Int) < 0)]
      have hget : (p.releasedConnects.set (p.cur + 1).toNat
          (some db))[(p.cur + 1).toNat]? = some (some db) :=
        getElem?_set_lt _ _ _ hok.2
      rw [hget]
      have hset2 : setSlot (p.releasedConnects.set (p.cur + 1).toNat (some db))
          (p.cur + 1) none
          = some ((p.releasedConnects.set (p.cur + 1).toNat (some db)).set
              (p.cur + 1).toNat none) := by
        unfold setSlot
        rw [if_pos ⟨hok.1, by simpa using hok.2⟩]
      rw [hset2]
    · have hset : setSlot p.releasedConnects (p.cur + 1) (some db) = none := by
        unfold setSlot
        rw [if_neg hok]
      rw [hset] at h
      cases h

theorem lifo_reuse_witness :
    releaseDB poolC4 5 = some (poolC4after, []) ∧
    ∃ p2, retrieveDB poolC4after (Except.error 0) 0 = RetrieveResult.ok 5 p2 :=
  ⟨by decide, lifo_reuse poolC4 poolC4after 5 (Except.error 0) 0 (by decide)⟩

/-- C8: once Init of SysConnectPool has succeeded with handle h0, every later
RetrieveDB returns exactly that handle with a nil error, no matter how many
acquires and releases are interleaved. -/
theorem sys_acquire_stable (p0 q : SysConnectPool) (h0 : Handle)
    (ops : List SysOp) (hinit : sysInit p0 (Except.ok h0) = Except.ok q) :
    sysRetrieveDB (sysApply q ops) = (some h0, none) := by
  unfold sysInit at hinit
  injection hinit with hq
  subst hq
  rw [sysApply_id]
  rfl

theorem sys_acquire_stable_witness :
    sysInit newSysConnectPool (Except.ok 3)
      = Except.ok { db := some 3, maxIdleConns := 2 } ∧
    sysRetrieveDB (sysApply { db := some 3, maxIdleConns := 2 }
      [SysOp.retrieve, SysOp.release 3]) = (some 3, none) :=
  ⟨by rfl, sys_acquire_stable newSysConnectPool { db := some 3, maxIdleConns := 2 }
    3 [SysOp.retrieve, SysOp.release 3] (by rfl)⟩

/-- C9: a successful Init of SysConnectPool sets the idle cap to the constant
2; it stays 2 across any acquires/releases, and changes only when
SetMaxIdleConns is called. -/
theorem sys_maxidle_two (p0 q : SysConnectPool) (h0 : Handle)
    (hinit : sysInit p0 (Except.ok h0) = Except.ok q) :
    sysMaxIdleConns q = 2 ∧
    (∀ ops, sysMaxIdleConns (sysApply q ops) = 2) ∧
    (∀ c, sysMaxIdleConns (sysSetMaxIdleConns q c) = c) := by
  unfold sysInit at hinit
  injection hinit with hq
  subst hq
  refine ⟨rfl, ?_, fun c => rfl⟩
  intro ops
  rw [sysApply_id]
  rfl

theorem sys_maxidle_two_witness :
    sysInit newSysConnectPool (Except.ok 4)
      = Except.ok { db := some 4, maxIdleConns := 2 } ∧
    sysMaxIdleConns { db := (some 4 : Option Handle), maxIdleConns := 2 } = 2 ∧
    sysMaxIdleConns (sysApply { db := some 4, maxIdleConns := 2 }
      [SysOp.release 4]) = 2 ∧
    sysMaxIdleConns (sysSetMaxIdleConns
      { db := some 4, maxIdleConns := 2 } 6) = 6 := by
  have h := sys_maxidle_two newSysConnectPool
    { db := some 4, maxIdleConns := 2 } 4 (by rfl)
  exact ⟨by rfl, h.1, h.2.1 [SysOp.release 4], h.2.2 6⟩

/-- C10: Close only empties the idle backing storage: the cursor, the in-use
mapping and both configuration fields are untouched.  In particular a pool
whose cursor was nonnegative before Close still fails the emptiness test
`cur < 0` afterwards, and the next RetrieveDB, reading the emptied backing
slice at that stale cursor, panics. -/
theorem close_frame (p p' : SimpleConnectPool) (cs : List Handle)
    (fac : Except Nat Handle) (now : Nat)
    (h : simpleClose p = some (p', cs)) :
    p'.cur = p.cur ∧ p'.usingConnects = p.usingConnects ∧
    p'.maxIdleConns = p.maxIdleConns ∧ p'.maxWaitTimeOut = p.maxWaitTimeOut ∧
    p'.releasedConnects = [] ∧
    (0 ≤ p.cur → ¬ p'.cur < 0 ∧ retrieveDB p' fac now = RetrieveResult.panic) := by
  unfold simpleClose at h
  by_cases hp : (closeDrain p.releasedConnects).2
  · rw [if_pos hp] at h
    cases h
  · rw [if_neg hp] at h
    simp only [Option.some.injEq, Prod.mk.injEq] at h
    obtain ⟨rfl, rfl⟩ := h
    refine ⟨rfl, rfl, rfl, rfl, rfl, ?_⟩
    intro hc
    refine ⟨by simpa using (by omega : ¬ p.cur < 0), ?_⟩
    simp only [retrieveDB]
    rw [if_neg (show ¬ p.cur < 0 by omega)]
    rfl

theorem close_frame_witness :
    simpleClose poolFull = some (poolFullAfter, List.replicate 10 3) ∧
    (poolFullAfter.cur = poolFull.cur ∧
     poolFullAfter.usingConnects = poolFull.usingConnects ∧
     poolFullAfter.maxIdleConns = poolFull.maxIdleConns ∧
     poolFullAfter.maxWaitTimeOut = poolFull.maxWaitTimeOut ∧
     poolFullAfter.releasedConnects = [] ∧
     (0 ≤ poolFull.cur → ¬ poolFullAfter.cur < 0 ∧
       retrieveDB poolFullAfter (Except.error 0) 0 = RetrieveResult.panic)) :=
  ⟨by decide,
   close_frame poolFull poolFullAfter (List.replicate 10 3)
     (Except.error 0) 0 (by decide)⟩

/-! ### Intermediate states of the concrete executions -/

/-- Constructor state after Acquire (factory handle 0). -/
def poolA1 : SimpleConnectPool :=
  { newSimpleConnectPool with usingConnects := [(0, 0)] }

/-- ... after Acquire 0, Acquire 1. -/
def poolA2 : SimpleConnectPool :=
  { newSimpleConnectPool with usingConnects := [(1, 1), (0, 0)] }

/-- ... after Acquire 0, Acquire 1, Acquire 2. -/
def poolA3 : SimpleConnectPool :=
  { newSimpleConnectPool with usingConnects := [(2, 2), (1, 1), (0, 0)] }

/-- ... after Acquire ×3, Release 0. -/
def poolB1 : SimpleConnectPool :=
  { releasedConnects := some 0 :: List.replicate 9 none
    cur := 0
    usingConnects := [(2, 2), (1, 1)]
    maxWaitTimeOut := 14400
    maxIdleConns := 10 }

/-- ... after Acquire ×3, Release 0, Release 1. -/
def poolB2 : SimpleConnectPool :=
  { releasedConnects := [some 0, some 1] ++ List.replicate 8 none
    cur := 1
    usingConnects := [(2, 2)]
    maxWaitTimeOut := 14400
    maxIdleConns := 10 }

/-- ... after Acquire 0, Acquire 1, Release 0. -/
def poolR1 : SimpleConnectPool :=
  { releasedConnects := some 0 :: List.replicate 9 none
    cur := 0
    usingConnects := [(1, 1)]
    maxWaitTimeOut := 14400
    maxIdleConns := 10 }

/-- ... after Acquire 0, Acquire 1, Release 0, Release 1. -/
def poolR2 : SimpleConnectPool :=
  { releasedConnects := [some 0, some 1] ++ List.replicate 8 none
    cur := 1
    usingConnects := []
    maxWaitTimeOut := 14400
    maxIdleConns := 10 }

/-- C1 (code bug): from the constructor, acquire three connections and
release all three, so the idle stack holds exactly 0,1,2 and nothing is in
use.  Close then walks the WHOLE 10-slot backing slice: it closes 0,1,2 and
then invokes Close on the nil pointer in slot 3 — a nil-pointer dereference
panic — instead of stopping after the three stacked handles; the drain never
completes (`simpleClose` has no defined result). -/
theorem close_nil_deref_bug :
    Reach false true pool3 3 ∧
    idleHandles pool3 = [0, 1, 2] ∧
    closeDrain pool3.releasedConnects = ([0, 1, 2], true) ∧
    simpleClose pool3 = none := by
  refine ⟨?_, by decide, by decide, by decide⟩
  have h0 : Reach false true newSimpleConnectPool 0 := Reach.init
  have e1 : retrieveDB newSimpleConnectPool (Except.ok 0) 0
      = RetrieveResult.ok 0 poolA1 := by decide
  have h1 : Reach false true poolA1 1 := Reach.acquireNew h0 (by decide) e1
  have e2 : retrieveDB poolA1 (Except.ok 1) 1 = RetrieveResult.ok 1 poolA2 := by
    decide
  have h2 : Reach false true poolA2 2 := Reach.acquireNew h1 (by decide) e2
  have e3 : retrieveDB poolA2 (Except.ok 2) 2 = RetrieveResult.ok 2 poolA3 := by
    decide
  have h3 : Reach false true poolA3 3 := Reach.acquireNew h2 (by decide) e3
  have e4 : releaseDB poolA3 0 = some (poolB1, []) := by decide
  have h4 : Reach false true poolB1 3 := Reach.releaseStep h3 (fun _ => by decide) e4
  have e5 : releaseDB poolB1 1 = some (poolB2, []) := by decide
  have h5 : Reach false true poolB2 3 := Reach.releaseStep h4 (fun _ => by decide) e5
  have e6 : releaseDB poolB2 2 = some (pool3, []) := by decide
  exact Reach.releaseStep h5 (fun _ => by decide) e6

/-- C2 counterexample: the state poolOverIdle is reachable from the
constructor by Acquire 0, Acquire 1, Release 0, Release 1,
SetMaxIdleConns 1 — yet it holds 2 idle handles with maxIdleConns 1, so the
idle count exceeds the currently configured cap. -/
theorem idle_bound_counterexample :
    Reach true false poolOverIdle 2 ∧
    ¬ ((idleCount poolOverIdle : Int) ≤ poolOverIdle.maxIdleConns) := by
  refine ⟨?_, by decide⟩
  have h0 : Reach true false newSimpleConnectPool 0 := Reach.init
  have e1 : retrieveDB newSimpleConnectPool (Except.ok 0) 0
      = RetrieveResult.ok 0 poolA1 := by decide
  have h1 : Reach true false poolA1 1 := Reach.acquireNew h0 (by decide) e1
  have e2 : retrieveDB poolA1 (Except.ok 1) 1 = RetrieveResult.ok 1 poolA2 := by
    decide
  have h2 : Reach true false poolA2 2 := Reach.acquireNew h1 (by decide) e2
  have e3 : releaseDB poolA2 0 = some (poolR1, []) := by decide
  have h3 : Reach true false poolR1 2 := Reach.releaseStep h2 (by simp) e3
  have e4 : releaseDB poolR1 1 = some (poolR2, []) := by decide
  have h4 : Reach true false poolR2 2 := Reach.releaseStep h3 (by simp) e4
  exact Reach.setMaxStep 1 h4 rfl

/-- C2 amended: (1) as long as SetMaxIdleConns is never called, the idle
count never exceeds the configured maxIdleConns after any sequence of
operations; (2) in any reachable state (SetMaxIdleConns allowed) whose idle
count equals the current maxIdleConns, a Release closes the released handle
instead of retaining it and the idle count stays equal to maxIdleConns. -/
theorem idle_bound_amended :
    (∀ (w : Bool) (p : SimpleConnectPool) (n : Nat), Reach false w p n →
      (idleCount p : Int) ≤ p.maxIdleConns) ∧
    (∀ (a w : Bool) (p : SimpleConnectPool) (n : Nat) (db : Handle),
      Reach a w p n → (idleCount p : Int) = p.maxIdleConns →
      ∃ p', releaseDB p db = some (p', [db]) ∧ idleCount p' = idleCount p) := by
  constructor
  · intro w p n hr
    have h10 := maxIdle_reach_noSet hr
    have hle := idleCount_le_ten (structInv_reach hr)
    rw [h10]
    omega
  · intro a w p n db hr heq
    obtain ⟨hs, hstk, hcase⟩ := structInv_reach hr
    have hidle : idleCount p = hs.length := by
      unfold idleCount idleHandles
      rw [hstk.idle]
    rw [hidle] at heq
    have hlen := hstk.length_le
    have hclose : p.maxIdleConns - 1 ≤ p.cur := by
      rcases hcase with ⟨hl, hl2⟩ | ⟨hl, hc9⟩ <;> omega
    refine ⟨{ p with usingConnects := mapDelete p.usingConnects db }, ?_, ?_⟩
    · unfold releaseDB
      rw [if_pos hclose]
    · rfl

theorem idle_bound_amended_witness :
    (idleCount newSimpleConnectPool : Int) ≤ newSimpleConnectPool.maxIdleConns ∧
    ∃ p', releaseDB (setMaxIdleConns newSimpleConnectPool 0) 7 = some (p', [7]) ∧
      idleCount p' = idleCount (setMaxIdleConns newSimpleConnectPool 0) :=
  ⟨idle_bound_amended.1 false newSimpleConnectPool 0 Reach.init,
   idle_bound_amended.2 true false (setMaxIdleConns newSimpleConnectPool 0) 0 7
     (Reach.setMaxStep 0 Reach.init rfl) (by decide)⟩

/-- C3: in every state reachable by well-formed operation sequences (every
Release passes a handle currently tracked as in use, i.e. acquired and not
yet released), the handles on the idle stack and the keys of the in-use
mapping are disjoint. -/
theorem idle_inuse_disjoint (a : Bool) (p : SimpleConnectPool) (n : Nat)
    (hr : Reach a true p n) :
    ∀ h, h ∈ idleHandles p → ¬ h ∈ usingKeys p :=
  (fullInv_reach hr).2.1

theorem idle_inuse_disjoint_witness : ¬ 0 ∈ usingKeys poolW3 := by
  have h0 : Reach true true newSimpleConnectPool 0 := Reach.init
  have e1 : retrieveDB newSimpleConnectPool (Except.ok 0) 0
      = RetrieveResult.ok 0 poolA1 := by decide
  have h1 : Reach true true poolA1 1 := Reach.acquireNew h0 (by decide) e1
  have e2 : releaseDB poolA1 0 = some (poolW3, []) := by decide
  have h2 : Reach true true poolW3 1 :=
    Reach.releaseStep h1 (fun _ => by decide) e2
  exact idle_inuse_disjoint true poolW3 1 h2 0 (by decide)

/-- C6: in any state reachable without SetMaxIdleConns, releasing a handle
that is not a key of the in-use mapping never panics: the deletion from the
mapping is a no-op (the mapping is unchanged) and the retain-or-close
decision still runs exactly as for a tracked handle. -/
theorem release_untracked_safe (w : Bool) (p : SimpleConnectPool) (n : Nat)
    (db : Handle) (hr : Reach false w p n) (hout : ¬ db ∈ usingKeys p) :
    ∃ p' cs, releaseDB p db = some (p', cs) ∧
      p'.usingConnects = p.usingConnects ∧
      ((p.maxIdleConns - 1 ≤ p.cur ∧ cs = [db] ∧
          p'.releasedConnects = p.releasedConnects ∧ p'.cur = p.cur) ∨
       (p.cur < p.maxIdleConns - 1 ∧ cs = [] ∧
          idleHandles p' = idleHandles p ++ [db] ∧ p'.cur = p.cur + 1)) := by
  have h10 := maxIdle_reach_noSet hr
  obtain ⟨hs, hstk, hcase⟩ := structInv_reach hr
  have hdel : mapDelete p.usingConnects db = p.usingConnects :=
    mapDelete_of_not_mem hout
  by_cases hm : p.maxIdleConns - 1 ≤ p.cur
  · refine ⟨{ p with usingConnects := mapDelete p.usingConnects db }, [db],
      ?_, ?_, Or.inl ⟨hm, rfl, rfl, rfl⟩⟩
    · unfold releaseDB
      rw [if_pos hm]
    · show mapDelete p.usingConnects db = p.usingConnects
      exact hdel
  · rcases hcase with ⟨hlen, hlen2⟩ | ⟨hlen, hcur9⟩
    · have hct : (p.cur + 1).toNat = hs.length := by omega
      have hlt : hs.length < p.releasedConnects.length := by omega
      have hpush : 0 ≤ p.cur + 1 ∧ (p.cur + 1).toNat < p.releasedConnects.length := by
        omega
      have hset : setSlot p.releasedConnects (p.cur + 1) (some db)
          = some (p.releasedConnects.set (p.cur + 1).toNat (some db)) := by
        unfold setSlot
        rw [if_pos hpush]
      refine ⟨{ p with
          releasedConnects := p.releasedConnects.set (p.cur + 1).toNat (some db)
          cur := p.cur + 1
          usingConnects := mapDelete p.usingConnects db }, [],
        ?_, ?_, Or.inr ⟨by omega, rfl, ?_, rfl⟩⟩
      · unfold releaseDB
        rw [if_neg hm, hset]
      · show mapDelete p.usingConnects db = p.usingConnects
        exact hdel
      · show (p.releasedConnects.set (p.cur + 1).toNat (some db)).filterMap id
            = p.releasedConnects.filterMap id ++ [db]
        rw [hct, (hstk.set_push hlt db).idle, hstk.idle]
    · exact absurd (by omega : p.maxIdleConns - 1 ≤ p.cur) hm

theorem release_untracked_safe_witness :
    ¬ 5 ∈ usingKeys newSimpleConnectPool ∧
    ∃ p' cs, releaseDB newSimpleConnectPool 5 = some (p', cs) ∧
      p'.usingConnects = newSimpleConnectPool.usingConnects ∧
      ((newSimpleConnectPool.maxIdleConns - 1 ≤ newSimpleConnectPool.cur ∧
          cs = [5] ∧
          p'.releasedConnects = newSimpleConnectPool.releasedConnects ∧
          p'.cur = newSimpleConnectPool.cur) ∨
       (newSimpleConnectPool.cur < newSimpleConnectPool.maxIdleConns - 1 ∧
          cs = [] ∧
          idleHandles p' = idleHandles newSimpleConnectPool ++ [5] ∧
          p'.cur = newSimpleConnectPool.cur + 1)) :=
  ⟨by decide,
   release_untracked_safe false newSimpleConnectPool 0 5 Reach.init (by decide)⟩
